import Mathlib

/-!
Verification of the filtering engine of `ember-cli-filter-component`
(`addon/components/filter-content/component.js`) against its specification.

The component's filtering core consists of four pieces, embedded below:
  * `normalizedProperties` — the `normalizedProperties` computed property,
  * `normalizedQuery`      — the `normalizedQuery` computed property,
  * `getContentProps`      — dot-notated path resolution with `@each` wildcards,
  * `aContainsB`           — the matcher, and
  * `applyFilter`          — the orchestrating filter pass.

JavaScript strings are modelled as Lean `String`/`List Char`; JS values as the
inductive `JSVal`.  JS numbers are modelled as integers (the fragment the spec
exercises never needs fractional values).  Every function is written for
structural recursion so that concrete runs evaluate by `rfl`/`decide`.
-/

set_option maxRecDepth 8000

namespace FilterContent

/-- A JavaScript value, as far as the filter engine observes one: primitives
(boolean / number / string), arrays, plain objects (ordered field lists), and
`undefined`.  Functions, `null`, dates etc. never arise in the modelled
fragment. -/
inductive JSVal where
  | bool (b : Bool)
  | num (n : Int)
  | str (s : String)
  | list (xs : List JSVal)
  | obj (fields : List (String × JSVal))
  | undefined
deriving Repr

/-- JS `\w`: ASCII word characters `[A-Za-z0-9_]`. -/
def isWordChar (c : Char) : Bool :=
  c.isAlpha || c.isDigit || c = '_'

/-- JS `\s`, restricted to ASCII whitespace (the Unicode whitespace characters
are outside the modelled fragment; no claim uses them). -/
def isWsChar (c : Char) : Bool :=
  c = ' ' || c = '\t' || c = '\n' || c = '\r' || c = '\x0b' || c = '\x0c'

/-- `.replace(/[^\w\s\@\.\-]+/g, '')`: removing every run of invalid characters
is the same as removing each invalid character. -/
def stripInvalid (cs : List Char) : List Char :=
  cs.filter (fun c => isWordChar c || isWsChar c || c = '@' || c = '.' || c = '-')

/-- `.replace(/[\.]{2,}/g, '.')`: every run of two or more periods becomes a
single period (equivalently: every run of periods collapses to one).  The
Boolean argument records whether the previous character was a period. -/
def collapseDotsAux : Bool → List Char → List Char
  | _, [] => []
  | prevDot, c :: rest =>
    if c = '.' then
      if prevDot then collapseDotsAux true rest
      else '.' :: collapseDotsAux true rest
    else c :: collapseDotsAux false rest

def collapseDots (cs : List Char) : List Char :=
  collapseDotsAux false cs

/-- Scanner state for `normalizeDelims`: `neutral` scans for the next match
candidate, `pendingDot` has consumed a period that may start a match, and
`afterMatch` has just emitted a space for a `(\.)\s` match whose optional
back-referenced trailing period is still pending. -/
inductive DelimState where
  | neutral
  | pendingDot
  | afterMatch

/-- `.replace(/(\.+)?\s\1?/g, ' ')` on strings produced by `collapseDots`
(whose period runs all have length one, so the back-referenced group captures
at most a single period — runs of several periods never reach this pass): an
optional period, one whitespace character, and an optional trailing period
collapse to a single space; a lone whitespace character becomes a space (the
unset back-reference matches the empty string, so a period *after* a
whitespace with no period before it survives). -/
def normDelimsAux : DelimState → List Char → List Char
  | .pendingDot, [] => ['.']
  | _, [] => []
  | .neutral, c :: rest =>
    if c = '.' then normDelimsAux .pendingDot rest
    else if isWsChar c then ' ' :: normDelimsAux .neutral rest
    else c :: normDelimsAux .neutral rest
  | .pendingDot, c :: rest =>
    if isWsChar c then ' ' :: normDelimsAux .afterMatch rest
    else if c = '.' then '.' :: normDelimsAux .pendingDot rest
    else '.' :: c :: normDelimsAux .neutral rest
  | .afterMatch, c :: rest =>
    if c = '.' then normDelimsAux .neutral rest
    else if isWsChar c then ' ' :: normDelimsAux .neutral rest
    else c :: normDelimsAux .neutral rest

def normalizeDelims (cs : List Char) : List Char :=
  normDelimsAux .neutral cs

/-- `.split(/\s+/g)` followed by `.filter(z => z !== '')`: the maximal runs of
non-whitespace characters, in order. -/
def wsTokensAux (acc : List Char) : List Char → List (List Char)
  | [] => if acc.isEmpty then [] else [acc.reverse]
  | c :: rest =>
    if isWsChar c then
      if acc.isEmpty then wsTokensAux [] rest
      else acc.reverse :: wsTokensAux [] rest
    else wsTokensAux (c :: acc) rest

def wsTokens (cs : List Char) : List (List Char) :=
  wsTokensAux [] cs

/-- The `normalizedProperties` computed property: normalize the raw
space-delimited, dot-notated `properties` string into an array of property
paths.  Mirrors the replace/replace/replace/split/filter chain of the source
(`!properties ? [] : …`). -/
def normalizedProperties (properties : String) : List String :=
  if properties = "" then []
  else
    (wsTokens (normalizeDelims (collapseDots (stripInvalid properties.data)))).map
      (fun cs => String.mk cs)

/-- `query.replace(/\\+/g, '')`: removing every run of backslashes is removing
each backslash. -/
def stripBackslashes (query : String) : String :=
  String.mk (query.data.filter (fun c => c ≠ '\\'))

/-- The `normalizedQuery` computed property:
`Ember.isPresent(query) ? query.replace(/\\+/g, '') : ''`.
For a string, `Ember.isPresent` holds exactly when it contains a
non-whitespace character. -/
def normalizedQuery (query : String) : String :=
  if query.data.any (fun c => ¬ isWsChar c) then stripBackslashes query else ""

/-- `property.split(/\.+/g)`: split on runs of one or more periods.  The JS
split keeps an empty fragment for a leading or trailing period run (and for
the empty string), so the result is never empty.  The Boolean argument records
whether the scanner is inside a period run (whose segment has already been
emitted). -/
def splitDotsAux (acc : List Char) : Bool → List Char → List (List Char)
  | _, [] => [acc.reverse]
  | afterDot, c :: rest =>
    if c = '.' then
      if afterDot then splitDotsAux acc true rest
      else acc.reverse :: splitDotsAux [] true rest
    else splitDotsAux (c :: acc) false rest

def splitDots (cs : List Char) : List (List Char) :=
  splitDotsAux [] false cs

/-- `propArr.join('.')`. -/
def joinDots (segs : List (List Char)) : List Char :=
  List.intercalate ['.'] segs

/-- JS truthiness of a value: `false`, `0`, `''`, `undefined` (and `NaN`,
`null`, outside the model) are falsy; arrays and objects are always truthy. -/
def truthy : JSVal → Bool
  | .bool b => b
  | .num n => n ≠ 0
  | .str s => s ≠ ""
  | .list _ => true
  | .obj _ => true
  | .undefined => false

/-- `Ember.typeOf`. -/
def typeOf : JSVal → String
  | .bool _ => "boolean"
  | .num _ => "number"
  | .str _ => "string"
  | .list _ => "array"
  | .obj _ => "object"
  | .undefined => "undefined"

/-- `Ember.get(item, prop)`: property lookup on an object, `undefined` when
the property is absent or the receiver is not an object.  (Array index /
`length` lookups are outside the modelled fragment; no property path of the
spec uses them.) -/
def jsGet : JSVal → String → JSVal
  | .obj fields, prop =>
    match fields.lookup prop with
    | some v => v
    | none => .undefined
  | _, _ => .undefined

/-- JS `values.concat(v)` with a single argument: an array argument is
flattened one level, any other value is appended as a single element. -/
def jsConcat (values : List JSVal) : JSVal → List JSVal
  | .list xs => values ++ xs
  | v => values ++ [v]

/-- JS `values.concat(r)` where `r` is the result of a recursive
`getContentProps` call: an array result is flattened one level; an `undefined`
result (the recursive call threw and caught internally) is appended as a
single `undefined` element. -/
def jsConcatRes (values : List JSVal) : Option (List JSVal) → List JSVal
  | some xs => values ++ xs
  | none => values ++ [.undefined]

/-- The body of `getContentProps`, recursing on the segment list
`propArr = property.split(/\.+/g)`.

The source's recursive calls pass `propArr.join('.')` and re-split it on
entry; theorem `getContentProps_resplit` below proves that re-splitting the
joined tail gives back exactly the tail, so recursing on the segment list
directly is the same function.

The result is a pair: the returned value (`none` models the `undefined`
returned after the `catch`, i.e. after the `inception > 100` throw — the only
statement of the body that can throw in the modelled fragment), together with
the number of `console.error` reports emitted by the call and its recursive
descendants.

`++inception` pre-increments the *shared* local variable, so inside the
`@each` `forEach` loop every element with a non-empty remaining path bumps the
same counter; the fold therefore threads `(values, inception, errors)`. -/
def getCP (item : JSVal) (segs : List String) (inception : Nat) :
    Option (List JSVal) × Nat :=
  match segs with
  | [] => (some [], 0)
  | prop :: propArr =>
    if inception > 100 then
      -- `throw 'recursing too far, limit is 100 levels'`, caught by this
      -- call's own catch block and reported via `console.error`.
      (none, 1)
    else if prop = "@each" then
      match item with
      | .list xs =>
        let r :=
          xs.foldl
            (fun (acc : List JSVal × Nat × Nat) i =>
              if propArr.length ≠ 0 then
                let inc := acc.2.1 + 1
                let rec2 := getCP i propArr inc
                (jsConcatRes acc.1 rec2.1, inc, acc.2.2 + rec2.2)
              else
                (jsConcat acc.1 i, acc.2.1, acc.2.2))
            ([], inception, 0)
        (some (if r.1.length ≠ 0 then r.1 else []), r.2.2)
      | _ =>
        -- `item.forEach` is not defined: the loop is skipped, `values`
        -- stays empty.
        (some [], 0)
    else
      let z := let g := jsGet item prop; if truthy g then g else .list []
      if propArr.length ≠ 0 then
        let rec2 := getCP z propArr (inception + 1)
        let values := jsConcatRes [] rec2.1
        (some (if values.length ≠ 0 then values else []), rec2.2)
      else
        let values := jsConcat [] z
        (some (if values.length ≠ 0 then values else []), 0)

/-- `getContentProps(item, property, inception = 0)`: resolve the dot-notated
`property` against `item`. -/
def getContentProps (item : JSVal) (property : String) (inception : Nat := 0) :
    Option (List JSVal) × Nat :=
  getCP item ((splitDots property.data).map (fun cs => String.mk cs)) inception

/-! ### The matcher

`aContainsB` builds `new RegExp(`${b}`, 'g')` and tests `a.match(regex)`.  The
regular-expression dialect is embedded for the fragment the component can
produce: literal characters, `.`, the anchors `^` and `$`, the postfix
quantifiers `*`/`+`/`?` on a literal or `.`, and top-level alternation `|`.
Groups, character classes, escapes (queries have had every backslash stripped
by `normalizedQuery`), brace quantifiers and quantified anchors are outside
the fragment and are treated as pattern errors (`RegExp` syntax errors are
caught by `aContainsB`'s catch block like every other exception there, so an
unparsable pattern yields `undefined`, i.e. no match). -/

/-- A regex atom: a literal character, `.`, or an anchor. -/
inductive RAtom where
  | lit (c : Char)
  | dot
  | caret
  | dollar
deriving Repr

/-- A regex token: an atom, possibly under a postfix quantifier. -/
inductive RTok where
  | once (a : RAtom)
  | star (a : RAtom)
  | plus (a : RAtom)
  | opt (a : RAtom)
deriving Repr

/-- Characters with a regex meaning (or unsupported by the modelled
fragment). -/
def isRegexMeta (c : Char) : Bool :=
  c = '.' || c = '*' || c = '+' || c = '?' || c = '^' || c = '$' || c = '|' ||
  c = '(' || c = ')' || c = '[' || c = ']' || c = '{' || c = '}' || c = '\\'

/-- The atom a single non-quantifier pattern character denotes. -/
def atomOf (c : Char) : RAtom :=
  if c = '.' then .dot
  else if c = '^' then .caret
  else if c = '$' then .dollar
  else .lit c

/-- The token a postfix quantifier character builds from an atom. -/
def quantTok (q : Char) (a : RAtom) : RTok :=
  if q = '*' then .star a
  else if q = '+' then .plus a
  else .opt a

/-- Characters the modelled pattern fragment rejects outright (groups,
classes, escapes, brace quantifiers). -/
def isBadPatternChar (c : Char) : Bool :=
  c = '(' || c = ')' || c = '[' || c = ']' || c = '{' || c = '}' ||
  c = '\\' || c = '|'

/-- Parse one `|`-free alternative into tokens; `none` is a pattern error.
`pending` holds an atom already read whose emission waits on whether a postfix
quantifier follows. -/
def parseSeqAux : Option RAtom → List Char → Option (List RTok)
  | pending, [] =>
    some (match pending with
          | some a => [.once a]
          | none => [])
  | pending, c :: rest =>
    if c = '*' || c = '+' || c = '?' then
      match pending with
      | some a =>
        match a with
        | .caret => none   -- quantified anchor: outside the fragment
        | .dollar => none
        | _ =>
          match parseSeqAux none rest with
          | some ts => some (quantTok c a :: ts)
          | none => none
      | none => none       -- nothing to repeat
    else if isBadPatternChar c then none
    else
      match pending with
      | some p =>
        match parseSeqAux (some (atomOf c)) rest with
        | some ts => some (.once p :: ts)
        | none => none
      | none => parseSeqAux (some (atomOf c)) rest

def parseSeq (cs : List Char) : Option (List RTok) :=
  parseSeqAux none cs

/-- Split a pattern on top-level `|` (with no groups in the fragment, every
`|` is top level). -/
def splitBarsAux (acc : List Char) : List Char → List (List Char)
  | [] => [acc.reverse]
  | c :: rest =>
    if c = '|' then acc.reverse :: splitBarsAux [] rest
    else splitBarsAux (c :: acc) rest

def splitBars (cs : List Char) : List (List Char) :=
  splitBarsAux [] cs

/-- Parse every alternative, failing if any fails. -/
def parseAlts : List (List Char) → Option (List (List RTok))
  | [] => some []
  | cs :: rest =>
    match parseSeq cs with
    | some ts =>
      match parseAlts rest with
      | some tss => some (ts :: tss)
      | none => none
    | none => none

/-- Parse a whole pattern into its alternatives. -/
def parsePattern (cs : List Char) : Option (List (List RTok)) :=
  parseAlts (splitBars cs)

/-- Does a non-anchor atom accept the character?  (JS `.` matches anything but
a line terminator.) -/
def atomChar : RAtom → Char → Bool
  | .lit c, d => c = d
  | .dot, d => ¬ (d = '\n' || d = '\r')
  | .caret, _ => false
  | .dollar, _ => false

/-- Backtracking loop for a starred atom: either continue with the rest of the
pattern (`k`) right away, or consume one accepted character and loop.  `st`
tells whether the current position is the start of the subject. -/
def starLoop (a : RAtom) (k : List Char → Bool → Bool) : List Char → Bool → Bool
  | [], st => k [] st
  | d :: rem2, st => k (d :: rem2) st || (atomChar a d && starLoop a k rem2 false)

/-- Match a token sequence at the current position (`rem` is the remaining
subject, `st` whether the position is the subject's start). -/
def matchFrom : List RTok → List Char → Bool → Bool
  | [], _, _ => true
  | .once .caret :: ts, rem, st => st && matchFrom ts rem st
  | .once .dollar :: ts, rem, st => rem.isEmpty && matchFrom ts rem st
  | .once a :: ts, rem, _ =>
    match rem with
    | d :: rem2 => atomChar a d && matchFrom ts rem2 false
    | [] => false
  | .star a :: ts, rem, st => starLoop a (fun r s => matchFrom ts r s) rem st
  | .plus a :: ts, rem, _ =>
    match rem with
    | d :: rem2 => atomChar a d && starLoop a (fun r s => matchFrom ts r s) rem2 false
    | [] => false
  | .opt a :: ts, rem, st =>
    matchFrom ts rem st ||
      match rem with
      | d :: rem2 => atomChar a d && matchFrom ts rem2 false
      | [] => false

/-- Try the token sequence at every position of the subject (an unanchored
search, as `String.prototype.match` performs). -/
def searchFrom (ts : List RTok) : List Char → Bool → Bool
  | [], st => matchFrom ts [] st
  | c :: rem2, st => matchFrom ts (c :: rem2) st || searchFrom ts rem2 false

/-- `a.match(new RegExp(pattern, 'g')) !== null` for a string `a`:
`none` models a `RegExp` syntax error. -/
def jsRegexTest (pattern : String) (s : String) : Option Bool :=
  match parsePattern pattern.data with
  | none => none
  | some alts => some (alts.any (fun ts => searchFrom ts s.data true))

/-- `` `${b}` ``: JS string coercion of the value interpolated into the
pattern template. -/
def toTemplateString : JSVal → String
  | .bool b => if b then "true" else "false"
  | .num n => toString n
  | .str s => s
  | .list _ => ""
  | .obj _ => ""
  | .undefined => "undefined"

/-- `aContainsB(a, b)`.  The result is `some matched` on normal return and
`none` for the `undefined` returned after the catch block swallows an
exception.  The crucial faithfulness point: after the `Ember.typeOf` gate
admits `a` of type boolean, number or string, the code calls `a.match(regex)`
— a method only strings have.  For a boolean or number candidate this throws
`TypeError: a.match is not a function`, which the catch block logs, making the
function return `undefined`. -/
def aContainsB (a : JSVal) (b : JSVal) : Option Bool :=
  let matchTypes := ["boolean", "number", "string"]
  if matchTypes.contains (typeOf a) && matchTypes.contains (typeOf b) then
    match a with
    | .str s => jsRegexTest (toTemplateString b) s
    | _ => none
  else
    some false

/-- JS truthiness of an `aContainsB` result (`undefined` is falsy), as used in
`matched = this.aContainsB(values.shift(), query) ? true : false`. -/
def matchTruthy : Option Bool → Bool
  | some true => true
  | _ => false

/-- The per-item body of `applyFilter`'s `content.filter(item => …)`: gather
the values of every normalized property path (the top-level
`this.getContentProps(item, prop) || []` turns an `undefined` return into
`[]`), then shift values until one matches the query. -/
def itemMatched (props : List String) (q : String) (item : JSVal) : Bool :=
  (props.foldl
      (fun values prop => values ++ ((getContentProps item prop).1.getD []))
      []).any
    (fun v => matchTruthy (aContainsB v (.str q)))

/-- `applyFilter()`: the full filtering pass, as a function of the content
collection and the raw `properties` and `query` strings.  When the content is
empty, the normalized properties are empty, or the normalized query is empty,
the guard `content.length && properties.length && !!query` fails and the
content is passed through unchanged. -/
def applyFilter (content : List JSVal) (properties : String) (query : String) :
    List JSVal :=
  if content.length ≠ 0 ∧ (normalizedProperties properties).length ≠ 0 ∧
      normalizedQuery query ≠ "" then
    content.filter (itemMatched (normalizedProperties properties) (normalizedQuery query))
  else
    content

/-! ### Auxiliary definitions for the statements and fidelity proofs -/

/-- Plain Boolean prefix test on character lists. -/
def isPrefixL : List Char → List Char → Bool
  | [], _ => true
  | _ :: _, [] => false
  | c :: p, d :: s => c = d && isPrefixL p s

/-- Plain Boolean substring containment on character lists: `p` occurs
contiguously inside `s`. -/
def isSubL : List Char → List Char → Bool
  | p, [] => isPrefixL p []
  | p, d :: s => isPrefixL p (d :: s) || isSubL p s

/-- A collection nested `n` lists deep around a string leaf: the wildcard
expansion of `eachPath n` over `deepNest n` recurses through `n` levels. -/
def deepNest : Nat → JSVal
  | 0 => JSVal.str "leaf"
  | n + 1 => JSVal.list [deepNest n]

/-- The property path made of `n` `@each` segments. -/
def eachPath (n : Nat) : String :=
  String.intercalate "." (List.replicate n "@each")

/-- The `forEach` fold of `getCP`'s `@each` branch, as a standalone function
(definitionally the fold in `getCP`; used to state the fold lemmas). -/
def eachFold (propArr : List String) (xs : List JSVal)
    (acc : List JSVal × Nat × Nat) : List JSVal × Nat × Nat :=
  xs.foldl
    (fun (acc : List JSVal × Nat × Nat) i =>
      if propArr.length ≠ 0 then
        let inc := acc.2.1 + 1
        let rec2 := getCP i propArr inc
        (jsConcatRes acc.1 rec2.1, inc, acc.2.2 + rec2.2)
      else
        (jsConcat acc.1 i, acc.2.1, acc.2.2))
    acc

/-- The shape of every non-empty tail of a `splitDots` result: all segments
are period-free, and every segment except possibly the last is non-empty.
These are exactly the segment lists on which the source's
`propArr.join('.')` / re-split round trip is the identity
(`splitDots_joinDots_of_segsTail` below). -/
inductive SegsTail : List (List Char) → Prop where
  | single (a : List Char) : (∀ c ∈ a, c ≠ '.') → SegsTail [a]
  | cons (a : List Char) (l : List (List Char)) :
      a ≠ [] → (∀ c ∈ a, c ≠ '.') → SegsTail l → SegsTail (a :: l)

/-! ## Step lemmas for `getCP` -/

theorem getCP_nil (item : JSVal) (inception : Nat) :
    getCP item [] inception = (some [], 0) := rfl

theorem getCP_limit (item : JSVal) (prop : String) (propArr : List String)
    (inception : Nat) (h : inception > 100) :
    getCP item (prop :: propArr) inception = (none, 1) := by
  conv_lhs => rw [getCP.eq_def]
  simp [h]

theorem getCP_prop (item : JSVal) (prop : String) (propArr : List String)
    (inception : Nat) (h100 : ¬ inception > 100) (hne : prop ≠ "@each") :
    getCP item (prop :: propArr) inception =
      (let z := if truthy (jsGet item prop) then jsGet item prop else JSVal.list []
       if propArr.length ≠ 0 then
         (some (if (jsConcatRes [] (getCP z propArr (inception + 1)).1).length ≠ 0 then
                  jsConcatRes [] (getCP z propArr (inception + 1)).1 else []),
          (getCP z propArr (inception + 1)).2)
       else
         (some (if (jsConcat [] z).length ≠ 0 then jsConcat [] z else []), 0)) := by
  conv_lhs => rw [getCP.eq_def]
  simp [h100, hne]

theorem getCP_each_list (xs : List JSVal) (propArr : List String) (inception : Nat)
    (h100 : ¬ inception > 100) :
    getCP (JSVal.list xs) ("@each" :: propArr) inception =
      (some (if (eachFold propArr xs ([], inception, 0)).1.length ≠ 0 then
               (eachFold propArr xs ([], inception, 0)).1 else []),
       (eachFold propArr xs ([], inception, 0)).2.2) := by
  conv_lhs => rw [getCP.eq_def]
  simp [h100, eachFold]

/-! ## Fidelity of the segment-list recursion

The source's `getContentProps` recurses by passing `propArr.join('.')` and
re-splitting it on entry, where `propArr` is a non-empty tail of a
`split(/\.+/g)` result; `getCP` above recurses on the segment list directly.
The lemmas of this section close that gap: every such tail has the shape
`SegsTail` (`segsTail_splitDots_tail`), and on `SegsTail` lists re-splitting
the joined string is the identity, so the two recursions coincide
(`getContentProps_resplit`). -/

theorem segsTail_ne_nil (l : List (List Char)) (h : SegsTail l) : l ≠ [] := by
  cases h <;> simp

theorem joinDots_cons (a : List Char) (l : List (List Char)) (h : l ≠ []) :
    joinDots (a :: l) = a ++ '.' :: joinDots l := by
  cases l with
  | nil => contradiction
  | cons b l' =>
    simp [joinDots, List.intercalate, List.intersperse_cons_cons]

theorem splitDotsAux_dotFree (a : List Char) (acc : List Char)
    (h : ∀ c ∈ a, c ≠ '.') :
    splitDotsAux acc false a = [acc.reverse ++ a] := by
  induction a generalizing acc with
  | nil => simp [splitDotsAux]
  | cons c rest ih =>
    have hc : ¬ c = '.' := h c (by simp)
    simp only [splitDotsAux, if_neg hc]
    rw [ih (c :: acc) (fun x hx => h x (by simp [hx]))]
    simp

theorem splitDotsAux_seg (a : List Char) (cs : List Char) (acc : List Char)
    (h : ∀ c ∈ a, c ≠ '.') :
    splitDotsAux acc false (a ++ '.' :: cs) =
      (acc.reverse ++ a) :: splitDotsAux [] true cs := by
  induction a generalizing acc with
  | nil => simp [splitDotsAux]
  | cons c rest ih =>
    have hc : ¬ c = '.' := h c (by simp)
    simp only [List.cons_append, splitDotsAux, if_neg hc, List.append_eq]
    rw [ih (c :: acc) (fun x hx => h x (by simp [hx]))]
    simp

theorem splitDotsAux_true_eq_false (cs : List Char)
    (h : ∀ c ∈ cs.head?, c ≠ '.') :
    splitDotsAux [] true cs = splitDotsAux [] false cs := by
  cases cs with
  | nil => rfl
  | cons c rest =>
    have hc : ¬ c = '.' := h c (by simp)
    simp [splitDotsAux, if_neg hc]

theorem segsTail_joinDots_head (l : List (List Char)) (h : SegsTail l) :
    ∀ c ∈ (joinDots l).head?, c ≠ '.' := by
  cases h with
  | single a ha =>
    cases a with
    | nil =>
      intro c hc
      simp [joinDots, List.intercalate] at hc
    | cons c a' =>
      simp only [joinDots, List.intercalate]
      intro x hx
      simp at hx
      subst hx
      exact ha c (by simp)
  | cons a l hne ha hl =>
    rw [joinDots_cons a l (segsTail_ne_nil l hl)]
    cases a with
    | nil => contradiction
    | cons c a' =>
      intro x hx
      simp at hx
      subst hx
      exact ha c (by simp)

/-- Re-splitting the `'.'`-joined tail of a split gives back exactly the tail:
on every segment list of shape `SegsTail`, the source's `propArr.join('.')`
round-trips through `split(/\.+/g)`. -/
theorem splitDots_joinDots_of_segsTail (l : List (List Char)) (h : SegsTail l) :
    splitDots (joinDots l) = l := by
  induction h with
  | single a ha =>
    have : joinDots [a] = a := by simp [joinDots, List.intercalate]
    rw [this]
    unfold splitDots
    rw [splitDotsAux_dotFree a [] ha]
    simp
  | cons a l hne ha hl ih =>
    rw [joinDots_cons a l (segsTail_ne_nil l hl)]
    unfold splitDots
    rw [splitDotsAux_seg a (joinDots l) [] ha]
    rw [splitDotsAux_true_eq_false (joinDots l) (segsTail_joinDots_head l hl)]
    unfold splitDots at ih
    rw [ih]
    simp

theorem splitDotsAux_shape (cs : List Char) :
    (∀ acc : List Char, acc ≠ [] → (∀ c ∈ acc, c ≠ '.') →
       SegsTail (splitDotsAux acc false cs)) ∧
    SegsTail (splitDotsAux [] true cs) := by
  induction cs with
  | nil =>
    constructor
    · intro acc hne hdf
      exact SegsTail.single acc.reverse (by simpa using fun c hc => hdf c hc)
    · exact SegsTail.single [] (by simp)
  | cons c rest ih =>
    by_cases hc : c = '.'
    · subst hc
      constructor
      · intro acc hne hdf
        simp only [splitDotsAux, if_pos rfl]
        exact SegsTail.cons acc.reverse _ (by simpa using hne)
          (by simpa using fun x hx => hdf x hx) ih.2
      · simp only [splitDotsAux, if_pos rfl]
        exact ih.2
    · constructor
      · intro acc hne hdf
        simp only [splitDotsAux, if_neg hc]
        exact ih.1 (c :: acc) (by simp)
          (fun x hx => by
            rcases List.mem_cons.mp hx with hx | hx
            · subst hx; exact hc
            · exact hdf x hx)
      · simp only [splitDotsAux, if_neg hc]
        exact ih.1 [c] (by simp)
          (fun x hx => by
            rcases List.mem_cons.mp hx with hx | hx
            · subst hx; exact hc
            · simp at hx)

theorem splitDotsAux_tail_segsTail (cs : List Char) :
    ∀ (acc : List Char) (p : List Char) (rest : List (List Char)),
      splitDotsAux acc false cs = p :: rest → rest ≠ [] → SegsTail rest := by
  induction cs with
  | nil =>
    intro acc p rest h hne
    simp [splitDotsAux] at h
    exact absurd h.2 hne
  | cons c cs ih =>
    intro acc p rest h hne
    by_cases hc : c = '.'
    · subst hc
      simp only [splitDotsAux, if_pos rfl] at h
      have := (List.cons.injEq _ _ _ _).mp h
      rw [← this.2]
      exact (splitDotsAux_shape cs).2
    · simp only [splitDotsAux, if_neg hc] at h
      exact ih (c :: acc) p rest h hne

/-- Every non-empty tail of a `splitDots` result has shape `SegsTail`. -/
theorem segsTail_splitDots_tail (cs : List Char) (p : List Char)
    (rest : List (List Char)) (h : splitDots cs = p :: rest) (hne : rest ≠ []) :
    SegsTail rest :=
  splitDotsAux_tail_segsTail cs [] p rest h hne

/-- Fidelity of `getCP`'s recursion on segment lists to the source's recursion
on re-joined strings: on every segment list a recursive call can receive
(`SegsTail`, by `segsTail_splitDots_tail`), resolving the segments directly is
the same as resolving `propArr.join('.')`. -/
theorem getContentProps_resplit (item : JSVal) (rest : List (List Char))
    (inception : Nat) (h : SegsTail rest) :
    getContentProps item (String.mk (joinDots rest)) inception =
      getCP item (rest.map (fun cs => String.mk cs)) inception := by
  unfold getContentProps
  rw [show (String.mk (joinDots rest)).data = joinDots rest from rfl,
      splitDots_joinDots_of_segsTail rest h]

/-! ## The matcher on metacharacter-free patterns -/

theorem parseSeqAux_literal (p : List Char) (h : ∀ c ∈ p, isRegexMeta c = false) :
    parseSeqAux none p = some (p.map (fun c => RTok.once (RAtom.lit c))) ∧
    ∀ d, parseSeqAux (some (RAtom.lit d)) p =
      some (RTok.once (RAtom.lit d) :: p.map (fun c => RTok.once (RAtom.lit c))) := by
  induction p with
  | nil => exact ⟨rfl, fun d => rfl⟩
  | cons c rest ih =>
    have hc := h c (by simp)
    have hrest := ih (fun x hx => h x (by simp [hx]))
    simp only [isRegexMeta, Bool.or_eq_false_iff, decide_eq_false_iff_not] at hc
    obtain ⟨⟨⟨⟨⟨⟨⟨⟨⟨⟨⟨⟨⟨hdot, hstar⟩, hplus⟩, hq⟩, hcaret⟩, hdollar⟩, hbar⟩,
      h1⟩, h2⟩, h3⟩, h4⟩, h5⟩, h6⟩, h7⟩ := hc
    have hquant : (c = '*' || c = '+' || c = '?') = false := by
      simp [hstar, hplus, hq]
    have hbad : isBadPatternChar c = false := by
      simp [isBadPatternChar, h1, h2, h3, h4, h5, h6, h7, hbar]
    have hatom : atomOf c = RAtom.lit c := by
      simp [atomOf, hdot, hcaret, hdollar]
    constructor
    · simp only [parseSeqAux, hquant, Bool.false_eq_true, if_false, hbad, hatom]
      rw [hrest.2 c]
      simp
    · intro d
      simp only [parseSeqAux, hquant, Bool.false_eq_true, if_false, hbad, hatom]
      rw [hrest.2 c]
      simp

theorem splitBarsAux_nobar (p : List Char) (acc : List Char)
    (h : ∀ c ∈ p, isRegexMeta c = false) :
    splitBarsAux acc p = [acc.reverse ++ p] := by
  induction p generalizing acc with
  | nil => simp [splitBarsAux]
  | cons c rest ih =>
    have hc := h c (by simp)
    have hbar : ¬ c = '|' := by
      intro hh
      rw [hh] at hc
      simp [isRegexMeta] at hc
    simp only [splitBarsAux, if_neg hbar]
    rw [ih (c :: acc) (fun x hx => h x (by simp [hx]))]
    simp

theorem matchFrom_literal (p : List Char) (rem : List Char) (st : Bool) :
    matchFrom (p.map (fun c => RTok.once (RAtom.lit c))) rem st = isPrefixL p rem := by
  induction p generalizing rem st with
  | nil => simp [matchFrom, isPrefixL]
  | cons c p ih =>
    cases rem with
    | nil => simp [matchFrom, isPrefixL]
    | cons d rem2 => simp [matchFrom, isPrefixL, atomChar, ih]

theorem searchFrom_literal (p : List Char) (rem : List Char) (st : Bool) :
    searchFrom (p.map (fun c => RTok.once (RAtom.lit c))) rem st = isSubL p rem := by
  induction rem generalizing st with
  | nil => simp [searchFrom, isSubL, matchFrom_literal]
  | cons d rem2 ih => simp [searchFrom, isSubL, matchFrom_literal, ih]

/-- On a pattern free of regex metacharacters, the regex test is exactly
substring containment. -/
theorem jsRegexTest_literal (p s : String) (h : ∀ c ∈ p.data, isRegexMeta c = false) :
    jsRegexTest p s = some (isSubL p.data s.data) := by
  unfold jsRegexTest parsePattern splitBars
  rw [splitBarsAux_nobar p.data [] h]
  simp only [List.reverse_nil, List.nil_append]
  simp only [parseAlts, parseSeq]
  rw [(parseSeqAux_literal p.data h).1]
  simp [searchFrom_literal]

/-! ## Fold lemmas for the shared `++inception` counter -/

theorem getCP_p_ok (m : Nat) (h : ¬ m > 100) :
    getCP (JSVal.obj [("p", JSVal.str "red")]) ["p"] m = (some [JSVal.str "red"], 0) := by
  rw [getCP_prop _ "p" [] m h (by decide)]
  simp [jsGet, truthy, jsConcat]

theorem getCP_p_err (m : Nat) (h : m > 100) :
    getCP (JSVal.obj [("p", JSVal.str "red")]) ["p"] m = (none, 1) :=
  getCP_limit _ "p" [] m h

theorem eachFold_step (x : JSVal) (xs : List JSVal) (propArr : List String)
    (values : List JSVal) (k errs : Nat) (h : propArr.length ≠ 0) :
    eachFold propArr (x :: xs) (values, k, errs) =
      eachFold propArr xs
        (jsConcatRes values (getCP x propArr (k + 1)).1, k + 1,
         errs + (getCP x propArr (k + 1)).2) := by
  simp [eachFold, h]

theorem eachFold_append (propArr : List String) (xs ys : List JSVal)
    (acc : List JSVal × Nat × Nat) :
    eachFold propArr (xs ++ ys) acc = eachFold propArr ys (eachFold propArr xs acc) := by
  simp [eachFold, List.foldl_append]

theorem eachFold_low (m : Nat) (values : List JSVal) (k errs : Nat)
    (h : k + m ≤ 100) :
    eachFold ["p"] (List.replicate m (JSVal.obj [("p", JSVal.str "red")])) (values, k, errs) =
      (values ++ List.replicate m (JSVal.str "red"), k + m, errs) := by
  induction m generalizing values k errs with
  | zero => simp [eachFold]
  | succ m ih =>
    rw [List.replicate_succ, eachFold_step _ _ _ _ _ _ (by decide),
        getCP_p_ok (k + 1) (by omega)]
    simp only [jsConcatRes, Nat.add_zero]
    rw [ih (values ++ [JSVal.str "red"]) (k + 1) errs (by omega)]
    simp [List.replicate_succ, List.append_assoc]
    omega

theorem eachFold_high (m : Nat) (values : List JSVal) (k errs : Nat)
    (h : 100 ≤ k) :
    eachFold ["p"] (List.replicate m (JSVal.obj [("p", JSVal.str "red")])) (values, k, errs) =
      (values ++ List.replicate m JSVal.undefined, k + m, errs + m) := by
  induction m generalizing values k errs with
  | zero => simp [eachFold]
  | succ m ih =>
    rw [List.replicate_succ, eachFold_step _ _ _ _ _ _ (by decide),
        getCP_p_err (k + 1) (by omega)]
    simp only [jsConcatRes]
    rw [ih (values ++ [JSVal.undefined]) (k + 1) (errs + 1) (by omega)]
    simp [List.replicate_succ, List.append_assoc]
    omega

/-! ## The claims -/

/-- C1: for every content collection `C`, properties string `p` and query
string `q`, if the normalized properties are empty, or the query with
backslashes stripped is empty, or `C` is empty, then `applyFilter C p q`
returns `C` unchanged — the guard
`content.length && properties.length && !!query` fails and the pass
short-circuits to the identity. -/
theorem applyFilter_short_circuit_identity (C : List JSVal) (p q : String)
    (h : normalizedProperties p = [] ∨ stripBackslashes q = "" ∨ C = []) :
    applyFilter C p q = C := by
  rcases h with h | h | h
  · simp [applyFilter, h]
  · have hq : normalizedQuery q = "" := by simp [normalizedQuery, h]
    simp [applyFilter, hq]
  · simp [applyFilter, h]

theorem applyFilter_short_circuit_identity_witness :
    applyFilter [JSVal.str "a"] "name" "" = [JSVal.str "a"] :=
  applyFilter_short_circuit_identity [JSVal.str "a"] "name" ""
    (Or.inr (Or.inl rfl))

/-- C2 (the code, not the claim): a candidate whose runtime type is number or
boolean passes the `Ember.typeOf` gate of `aContainsB` but then crashes on
`a.match(regex)` (only strings have `.match`); the catch block swallows the
`TypeError` and the call returns `undefined`, so the candidate can never
match — contradicting both the claim and the function's own documentation
(`@param {(number|string)} a`, "passed values are sloppily coerced to
strings"). -/
theorem aContainsB_number_boolean_candidate_undefined :
    aContainsB (JSVal.num 5) (JSVal.str "5") = none ∧
    aContainsB (JSVal.bool true) (JSVal.str "tru") = none ∧
    matchTruthy (aContainsB (JSVal.num 5) (JSVal.str "5")) = false :=
  ⟨rfl, rfl, rfl⟩

/-- C3: filtering is idempotent — running `applyFilter` a second time with
the same properties and query over its own output changes nothing, because
every surviving item already satisfies the (pure) per-item predicate. -/
theorem applyFilter_idempotent (C : List JSVal) (p q : String) :
    applyFilter (applyFilter C p q) p q = applyFilter C p q := by
  unfold applyFilter
  split_ifs with h1 h2
  · simp [List.filter_filter]
  · rfl
  · rfl

/-- C4: an item whose wildcard expansion recurses past 100 levels
(`deepNest 102` under the 102-segment `@each` path) makes the innermost
resolution throw the recursion-limit error, which is reported once via
`console.error` (error count 1) and aborts only that resolution (the item's
value list degenerates to `[undefined]`), while every other item of the
collection is filtered exactly as it would be on its own. -/
theorem recursion_limit_reported_and_contained :
    (getContentProps (deepNest 102) (eachPath 102)).2 = 1 ∧
    (getContentProps (deepNest 102) (eachPath 102)).1 = some [JSVal.undefined] ∧
    ∀ (rest : List JSVal),
      applyFilter (deepNest 102 :: rest) (eachPath 102 ++ " name") "red" =
        applyFilter rest (eachPath 102 ++ " name") "red" := by
  refine ⟨rfl, rfl, ?_⟩
  intro rest
  have hp : normalizedProperties (eachPath 102 ++ " name") = [eachPath 102, "name"] := by
    rfl
  have hq : normalizedQuery "red" = "red" := rfl
  have hpred : itemMatched [eachPath 102, "name"] "red" (deepNest 102) = false := by
    rfl
  have key : ∀ (content : List JSVal), content ≠ [] →
      applyFilter content (eachPath 102 ++ " name") "red" =
        content.filter (itemMatched [eachPath 102, "name"] "red") := by
    intro content hne
    unfold applyFilter
    rw [hp, hq]
    rw [if_pos ⟨by simpa using hne, by decide, by decide⟩]
  cases rest with
  | nil => rfl
  | cons r rs =>
    rw [key _ (by simp), key _ (by simp)]
    simp [List.filter_cons, hpred]

/-- C5: wildcard expansion on the spec's concrete example — filtering
`[{tags: ["red","blue"]}, {tags: ["green"]}]` by path `"tags.@each"` and
query `"red"` keeps exactly the first item: `@each` iterates the resolved
collection and the element values are flattened in element order. -/
theorem wildcard_expansion_concrete :
    applyFilter
        [JSVal.obj [("tags", JSVal.list [JSVal.str "red", JSVal.str "blue"])],
         JSVal.obj [("tags", JSVal.list [JSVal.str "green"])]]
        "tags.@each" "red"
      = [JSVal.obj [("tags", JSVal.list [JSVal.str "red", JSVal.str "blue"])]] := by
  rfl

/-- C6: normalization of the spec's concrete example — the double period
collapses, whitespace delimits, empty fragments are dropped and order is
preserved. -/
theorem normalizedProperties_concrete :
    normalizedProperties "first.name  last..name" = ["first.name", "last.name"] := by
  rfl

/-- C7: resolving the path `"a.b.c"` against any item lacking a property
`"a"` yields the empty value sequence, with no error report: the missing
lookup falls back to `[]` (`Ember.get(item, prop) || []`) and the remaining
segments resolve against that empty array to nothing. -/
theorem missing_property_empty_resolution (item : JSVal)
    (h : jsGet item "a" = JSVal.undefined) :
    getContentProps item "a.b.c" = (some [], 0) := by
  show getCP item ["a", "b", "c"] 0 = (some [], 0)
  rw [getCP_prop item "a" ["b", "c"] 0 (by omega) (by decide)]
  simp [h, truthy, show getCP (JSVal.list []) ["b", "c"] 1 = (some [], 0) from rfl,
    jsConcatRes]

theorem missing_property_empty_resolution_witness :
    getContentProps (JSVal.obj [("x", JSVal.str "y")]) "a.b.c" = (some [], 0) :=
  missing_property_empty_resolution (JSVal.obj [("x", JSVal.str "y")]) rfl

/-- C8, as stated, is false: the query is used verbatim as a regex pattern, so
a query containing an anchor can occur verbatim as a substring of a string
candidate and still not match — here `"a$"` inside `"a$b"`. -/
theorem anchored_query_not_substring_match :
    isSubL "a$".data "a$b".data = true ∧
    aContainsB (JSVal.str "a$b") (JSVal.str "a$") = some false :=
  ⟨rfl, rfl⟩

/-- C8 (amended): matching is case-sensitive (`"Red"` does not match
`"red"`), and for a string candidate and a query free of regex
metacharacters, the query matches exactly when it occurs as a case-identical
substring of the candidate — no full match required. -/
theorem match_case_sensitive_unanchored_literal :
    aContainsB (JSVal.str "red") (JSVal.str "Red") = some false ∧
    ∀ (a p : String), (∀ c ∈ p.data, isRegexMeta c = false) →
      (aContainsB (JSVal.str a) (JSVal.str p) = some true ↔
        isSubL p.data a.data = true) := by
  refine ⟨rfl, ?_⟩
  intro a p h
  have hval : aContainsB (JSVal.str a) (JSVal.str p) = some (isSubL p.data a.data) := by
    unfold aContainsB
    simp [typeOf, toTemplateString, jsRegexTest_literal _ _ h]
  rw [hval]
  constructor
  · intro hh
    injection hh
  · intro hh
    rw [hh]

theorem match_case_sensitive_unanchored_literal_witness :
    aContainsB (JSVal.str "ared") (JSVal.str "re") = some true :=
  (match_case_sensitive_unanchored_literal.2 "ared" "re" (by decide)).mpr (by decide)

/-- C9: a path whose final segment resolves to a falsy scalar (`false`, `0`
or `""`) contributes no value — `Ember.get(item, prop) || []` replaces the
falsy lookup by an empty array — so such values can never produce a match;
in particular the query `"0"` does not accept an item whose sole filtered
property holds the number `0`. -/
theorem falsy_resolved_value_never_matches :
    (∀ (item : JSVal) (prop : String), prop ≠ "@each" →
      truthy (jsGet item prop) = false →
      getCP item [prop] 0 = (some [], 0)) ∧
    applyFilter [JSVal.obj [("n", JSVal.num 0)]] "n" "0" = [] := by
  constructor
  · intro item prop h1 h2
    rw [getCP_prop item prop [] 0 (by omega) h1]
    simp [h2, jsConcat]
  · rfl

theorem falsy_resolved_value_never_matches_witness :
    getCP (JSVal.obj [("flag", JSVal.bool false)]) ["flag"] 0 = (some [], 0) :=
  falsy_resolved_value_never_matches.1 (JSVal.obj [("flag", JSVal.bool false)])
    "flag" (by decide) rfl

/-- C10: the `++inception` counter is shared across the sibling elements of a
`@each` expansion, so resolving `"@each.p"` over a flat collection of
`n > 100` two-level items already trips the 100-level recursion guard: the
first 100 elements resolve normally and every element past the hundredth
fails with the recursion-limit error (one report each, `n - 100` in total),
contributing `undefined` instead of its value. -/
theorem inception_counter_shared_across_siblings (n : Nat) (h : 100 < n) :
    getCP (JSVal.list (List.replicate n (JSVal.obj [("p", JSVal.str "red")])))
        ["@each", "p"] 0 =
      (some (List.replicate 100 (JSVal.str "red") ++
             List.replicate (n - 100) JSVal.undefined),
       n - 100) := by
  rw [getCP_each_list _ _ 0 (by omega)]
  have hsplit :
      List.replicate n (JSVal.obj [("p", JSVal.str "red")]) =
        List.replicate 100 (JSVal.obj [("p", JSVal.str "red")]) ++
          List.replicate (n - 100) (JSVal.obj [("p", JSVal.str "red")]) := by
    rw [← List.replicate_add]
    congr 1
    omega
  rw [hsplit, eachFold_append, eachFold_low 100 [] 0 0 (by omega),
      eachFold_high (n - 100) _ 100 0 (by omega)]
  simp

theorem inception_counter_shared_across_siblings_witness :
    getCP (JSVal.list (List.replicate 101 (JSVal.obj [("p", JSVal.str "red")])))
        ["@each", "p"] 0 =
      (some (List.replicate 100 (JSVal.str "red") ++ List.replicate 1 JSVal.undefined),
       1) :=
  inception_counter_shared_across_siblings 101 (by decide)

end FilterContent
